/-
  Verification of the free-slot finder and orchestrator dispatch of the
  calendar-ai-bot repository (src/calendar_service.py, src/ai_agent.py).

  Timestamps are modelled as integers (minutes on a single naive timeline);
  the Python code works with second-precision naive datetimes, which form the
  same linearly ordered additive structure, so every comparison and addition
  in the algorithm transfers verbatim.
-/
import Mathlib

namespace CalendarBot

/-- Relation used by `busy_periods.sort(key=lambda x: x[0])`: compare busy
periods by their start time. -/
def byStart (a b : Int × Int) : Prop := a.1 ≤ b.1

instance : DecidableRel byStart := fun a b => inferInstanceAs (Decidable (a.1 ≤ b.1))

instance : IsTotal (Int × Int) byStart := ⟨fun a b => le_total a.1 b.1⟩

instance : IsTrans (Int × Int) byStart := ⟨fun _ _ _ h h' => le_trans h h'⟩

/-- `busy_periods.sort(key=lambda x: x[0])` from `suggest_time_slots`
(calendar_service.py line 148): stable sort of the busy periods by start
time.  Python's sort is stable, and a stable sort by a total preorder is
unique, so insertion sort models it exactly. -/
def sortByStart (l : List (Int × Int)) : List (Int × Int) :=
  List.insertionSort byStart l

/-- The sweep loop of `suggest_time_slots` (calendar_service.py lines
151-172): starting from cursor `c`, for each busy period `(bs, be)` emit the
slot `(c, c + d)` when `c + d ≤ bs`, then advance the cursor to
`max c be`; after the loop emit one tail slot when `c + d ≤ wEnd`.
`d` is the slot duration (`timedelta(minutes=duration_minutes)`), `wEnd`
is `end_of_day`.  A slot is the pair (start, end); the Python dict also
carries `duration_minutes`, which is determined by the pair. -/
def sweep (d wEnd : Int) : Int → List (Int × Int) → List (Int × Int)
  | c, [] => if c + d ≤ wEnd then [(c, c + d)] else []
  | c, (bs, be) :: rest =>
      (if c + d ≤ bs then [(c, c + d)] else []) ++ sweep d wEnd (max c be) rest

/-- One timestamp string coming from the calendar gateway, as
`suggest_time_slots` inspects it: whether the string contains `'T'`
(time-of-day present) and the result of
`datetime.fromisoformat(s.replace('Z', '+00:00')).replace(tzinfo=None)`
(`none` when parsing raises). -/
structure RawTimestamp where
  hasT : Bool
  parse : Option Int
  deriving DecidableEq, Repr

/-- One raw busy entry as returned by `get_busy_times`: a start and an end
timestamp string (the summary label is ignored by the slot computation). -/
structure RawBusy where
  startT : RawTimestamp
  endT : RawTimestamp
  deriving DecidableEq, Repr

/-- The normalization loop of `suggest_time_slots` (calendar_service.py
lines 134-145): keep an entry when its start string contains `'T'` and both
timestamps parse; skip all-day entries (`continue`) and entries whose
parsing raises (`except Exception: continue`).  No further check is made on
the parsed pair. -/
def normalizeBusy : List RawBusy → List (Int × Int)
  | [] => []
  | b :: rest =>
      if b.startT.hasT then
        match b.startT.parse, b.endT.parse with
        | some s, some e => (s, e) :: normalizeBusy rest
        | _, _ => normalizeBusy rest
      else normalizeBusy rest

/-- An entry that the normalization loop retains: start string has a
time-of-day and both timestamps parse. -/
def wellFormedRaw (b : RawBusy) : Bool :=
  b.startT.hasT && b.startT.parse.isSome && b.endT.parse.isSome

/-- The candidate slots produced by the sweep before truncation:
normalized busy periods, sorted by start, swept from `wStart`
(`start_of_day`). -/
def availableSlots (wStart wEnd d : Int) (busy : List (Int × Int)) :
    List (Int × Int) :=
  sweep d wEnd wStart (sortByStart busy)

/-- `suggest_time_slots` (calendar_service.py lines 110-175) on an already
parsed working window `[wStart, wEnd)` and duration `d`: normalize the raw
busy entries, sort, sweep, and return the first 5 suggestions
(`available_slots[:5]`, line 175). -/
def suggest_time_slots (wStart wEnd d : Int) (raw : List RawBusy) :
    List (Int × Int) :=
  (availableSlots wStart wEnd d (normalizeBusy raw)).take 5

/-! ### Basic facts about the sweep -/

lemma sweep_nil (d wEnd c : Int) :
    sweep d wEnd c [] = if c + d ≤ wEnd then [(c, c + d)] else [] := rfl

lemma sweep_cons (d wEnd c bs be : Int) (rest : List (Int × Int)) :
    sweep d wEnd c ((bs, be) :: rest) =
      (if c + d ≤ bs then [(c, c + d)] else []) ++ sweep d wEnd (max c be) rest := rfl

/-- Every slot the sweep emits starts at or after the initial cursor. -/
lemma sweep_start_ge (d wEnd : Int) :
    ∀ (l : List (Int × Int)) (c : Int), ∀ s ∈ sweep d wEnd c l, c ≤ s.1 := by
  intro l
  induction l with
  | nil =>
      intro c s hs
      rw [sweep_nil] at hs
      split at hs
      · rw [List.mem_singleton] at hs
        subst hs
        exact le_refl c
      · exact absurd hs (List.not_mem_nil s)
  | cons hd rest ih =>
      intro c s hs
      obtain ⟨bs, be⟩ := hd
      rw [sweep_cons] at hs
      rcases List.mem_append.mp hs with h | h
      · split at h
        · rw [List.mem_singleton] at h
          subst h
          exact le_refl c
        · exact absurd h (List.not_mem_nil s)
      · exact le_trans (le_max_left c be) (ih (max c be) s h)

/-- Every slot the sweep emits ends exactly `d` after it starts. -/
lemma sweep_snd (d wEnd : Int) :
    ∀ (l : List (Int × Int)) (c : Int), ∀ s ∈ sweep d wEnd c l, s.2 = s.1 + d := by
  intro l
  induction l with
  | nil =>
      intro c s hs
      rw [sweep_nil] at hs
      split at hs
      · rw [List.mem_singleton] at hs
        subst hs
        rfl
      · exact absurd hs (List.not_mem_nil s)
  | cons hd rest ih =>
      intro c s hs
      obtain ⟨bs, be⟩ := hd
      rw [sweep_cons] at hs
      rcases List.mem_append.mp hs with h | h
      · split at h
        · rw [List.mem_singleton] at h
          subst h
          rfl
        · exact absurd h (List.not_mem_nil s)
      · exact ih (max c be) s h

/-- Every slot the sweep emits either ends by `wEnd` (the tail slot) or ends
by the start of one of the busy periods (a gap slot).  Needs the list to be
sorted by start. -/
lemma sweep_within (d wEnd : Int) :
    ∀ (l : List (Int × Int)) (c : Int), l.Pairwise byStart →
      ∀ s ∈ sweep d wEnd c l, s.2 ≤ wEnd ∨ ∃ p ∈ l, s.2 ≤ p.1 := by
  intro l
  induction l with
  | nil =>
      intro c _ s hs
      rw [sweep_nil] at hs
      split at hs
      · rw [List.mem_singleton] at hs
        subst hs
        exact Or.inl (by assumption)
      · exact absurd hs (List.not_mem_nil s)
  | cons hd rest ih =>
      intro c hsort s hs
      obtain ⟨bs, be⟩ := hd
      rw [sweep_cons] at hs
      rcases List.mem_append.mp hs with h | h
      · split at h
        · rw [List.mem_singleton] at h
          subst h
          exact Or.inr ⟨(bs, be), List.mem_cons_self _ _, by assumption⟩
        · exact absurd h (List.not_mem_nil s)
      · rcases ih (max c be) (List.Pairwise.of_cons hsort) s h with hw | ⟨p, hp, hple⟩
        · exact Or.inl hw
        · exact Or.inr ⟨p, List.mem_cons_of_mem _ hp, hple⟩

/-- Every slot the sweep emits is disjoint from every busy period in the
list, provided the list is sorted by start. -/
lemma sweep_disjoint (d wEnd : Int) :
    ∀ (l : List (Int × Int)) (c : Int), l.Pairwise byStart →
      ∀ s ∈ sweep d wEnd c l, ∀ p ∈ l, p.2 ≤ s.1 ∨ s.2 ≤ p.1 := by
  intro l
  induction l with
  | nil =>
      intro c _ s _ p hp
      exact absurd hp (List.not_mem_nil p)
  | cons hd rest ih =>
      intro c hsort s hs p hp
      obtain ⟨bs, be⟩ := hd
      rw [List.pairwise_cons] at hsort
      rw [sweep_cons] at hs
      rcases List.mem_append.mp hs with h | h
      · split at h
        · rw [List.mem_singleton] at h
          subst h
          rcases List.mem_cons.mp hp with hph | hpt
          · subst hph
            exact Or.inr (by assumption)
          · exact Or.inr (le_trans (by assumption) (hsort.1 p hpt))
        · exact absurd h (List.not_mem_nil s)
      · rcases List.mem_cons.mp hp with hph | hpt
        · subst hph
          exact Or.inl (le_trans (le_max_right c be)
            (sweep_start_ge d wEnd rest (max c be) s h))
        · exact ih (max c be) hsort.2 s h p hpt

/-- Slots come out of the sweep back to back: each slot ends no later than
the next one starts, provided every busy period in the list satisfies
`start ≤ end` and the duration is positive.  No sortedness is needed. -/
lemma sweep_chain (d wEnd : Int) (hd : 0 < d) :
    ∀ (l : List (Int × Int)) (c : Int), (∀ p ∈ l, p.1 ≤ p.2) →
      (sweep d wEnd c l).Pairwise (fun a b => a.2 ≤ b.1) := by
  intro l
  induction l with
  | nil =>
      intro c _
      rw [sweep_nil]
      split
      · exact List.pairwise_singleton _ _
      · exact List.Pairwise.nil
  | cons hd' rest ih =>
      intro c hwf
      obtain ⟨bs, be⟩ := hd'
      have hrest : ∀ p ∈ rest, p.1 ≤ p.2 :=
        fun p hp => hwf p (List.mem_cons_of_mem _ hp)
      rw [sweep_cons]
      by_cases hemit : c + d ≤ bs
      · rw [if_pos hemit, List.singleton_append, List.pairwise_cons]
        refine ⟨fun t ht => ?_, ih (max c be) hrest⟩
        have h1 : max c be ≤ t.1 := sweep_start_ge d wEnd rest (max c be) t ht
        have h2 : bs ≤ be := hwf (bs, be) (List.mem_cons_self _ _)
        show c + d ≤ t.1
        calc c + d ≤ bs := hemit
          _ ≤ be := h2
          _ ≤ max c be := le_max_right c be
          _ ≤ t.1 := h1
      · rw [if_neg hemit, List.nil_append]
        exact ih (max c be) hrest

/-- The sweep emits at most one slot per busy period plus one tail slot. -/
lemma sweep_length_le (d wEnd : Int) :
    ∀ (l : List (Int × Int)) (c : Int), (sweep d wEnd c l).length ≤ l.length + 1 := by
  intro l
  induction l with
  | nil =>
      intro c
      rw [sweep_nil]
      split <;> simp
  | cons hd rest ih =>
      intro c
      obtain ⟨bs, be⟩ := hd
      rw [sweep_cons, List.length_append]
      have h := ih (max c be)
      split <;> simp only [List.length_singleton, List.length_nil, List.length_cons] <;> omega

/-- Once the cursor has reached `wEnd` and every remaining busy period
starts no later than `wEnd`, the sweep emits nothing. -/
lemma sweep_collapsed (d wEnd : Int) (hd : 0 < d) :
    ∀ (l : List (Int × Int)) (c : Int), wEnd ≤ c → (∀ p ∈ l, p.1 ≤ wEnd) →
      sweep d wEnd c l = [] := by
  intro l
  induction l with
  | nil =>
      intro c hc _
      rw [sweep_nil, if_neg (by omega)]
  | cons hd' rest ih =>
      intro c hc hends
      obtain ⟨bs, be⟩ := hd'
      have hbs : bs ≤ wEnd := hends (bs, be) (List.mem_cons_self _ _)
      rw [sweep_cons, if_neg (by omega), List.nil_append]
      exact ih (max c be) (le_trans hc (le_max_left c be))
        (fun p hp => hends p (List.mem_cons_of_mem _ hp))

/-- If some busy period spans the whole window (starts at or before
`wStart`, ends at or after `wEnd`) and every busy period starts no later
than `wEnd`, the sweep from any cursor at or after `wStart` emits
nothing. -/
lemma sweep_span (d wEnd wStart : Int) (hd : 0 < d) :
    ∀ (l : List (Int × Int)) (c : Int), l.Pairwise byStart → wStart ≤ c →
      (∀ p ∈ l, p.1 ≤ wEnd) → (∃ p ∈ l, p.1 ≤ wStart ∧ wEnd ≤ p.2) →
      sweep d wEnd c l = [] := by
  intro l
  induction l with
  | nil =>
      intro c _ _ _ hspan
      obtain ⟨p, hp, _⟩ := hspan
      exact absurd hp (List.not_mem_nil p)
  | cons hd' rest ih =>
      intro c hsort hc hends hspan
      obtain ⟨bs, be⟩ := hd'
      rw [List.pairwise_cons] at hsort
      have hrestends : ∀ p ∈ rest, p.1 ≤ wEnd :=
        fun p hp => hends p (List.mem_cons_of_mem _ hp)
      obtain ⟨p, hp, hp1, hp2⟩ := hspan
      rcases List.mem_cons.mp hp with hph | hpt
      · subst hph
        have h1 : bs ≤ wStart := hp1
        have h2 : wEnd ≤ be := hp2
        rw [sweep_cons, if_neg (by omega), List.nil_append]
        exact sweep_collapsed d wEnd hd rest (max c be)
          (le_trans h2 (le_max_right c be)) hrestends
      · have hble : bs ≤ p.1 := hsort.1 p hpt
        have h1 : p.1 ≤ wStart := hp1
        rw [sweep_cons, if_neg (by omega), List.nil_append]
        exact ih (max c be) hsort.2 (le_trans hc (le_max_left c be)) hrestends
          ⟨p, hpt, hp1, hp2⟩

/-! ### The explicit interval-merge variant (the refinement target of the
`max(cursor, busy.end)` advance) -/

/-- Modelled from the spec: one step of explicitly merging sorted busy
intervals into disjoint ones — absorb the next interval into the current
group when it starts no later than the group's end, extending the group's
end to the larger of the two ends; otherwise close the group.  (This merge
variant exists only in the spec; the code merges implicitly through the
cursor advance.) -/
def mergeAux : Int × Int → List (Int × Int) → List (Int × Int)
  | cur, [] => [cur]
  | cur, y :: ys =>
      if y.1 ≤ cur.2 then mergeAux (cur.1, max cur.2 y.2) ys
      else cur :: mergeAux y ys

/-- Modelled from the spec: explicitly merge overlapping busy intervals
(assumed sorted by start) into disjoint ones. -/
def mergeIntervals : List (Int × Int) → List (Int × Int)
  | [] => []
  | x :: xs => mergeAux x xs

lemma mergeAux_cons (c1 c2 y1 y2 : Int) (ys : List (Int × Int)) :
    mergeAux (c1, c2) ((y1, y2) :: ys) =
      if y1 ≤ c2 then mergeAux (c1, max c2 y2) ys
      else (c1, c2) :: mergeAux (y1, y2) ys := rfl

/-- Sweeping a merged group produces exactly the sweep of its constituent
intervals: the `max` cursor advance absorbs the merged members.  Needs only
a positive duration. -/
lemma sweep_mergeAux (d wEnd : Int) (hd : 0 < d) :
    ∀ (t : List (Int × Int)) (cur : Int × Int) (c : Int),
      sweep d wEnd c (mergeAux cur t) = sweep d wEnd c (cur :: t) := by
  intro t
  induction t with
  | nil => intro cur c; rfl
  | cons y ys ih =>
      intro cur c
      obtain ⟨b1, b2⟩ := cur
      obtain ⟨y1, y2⟩ := y
      rw [mergeAux_cons]
      by_cases hm : y1 ≤ b2
      · rw [if_pos hm, ih, sweep_cons, sweep_cons, sweep_cons]
        have hb2 : b2 ≤ max c b2 := le_max_right c b2
        have hneg : ¬ (max c b2 + d ≤ y1) := by omega
        rw [if_neg hneg, List.nil_append, max_assoc]
      · rw [if_neg hm, sweep_cons, sweep_cons, ih]

/-- Sweeping the explicitly merged list equals sweeping the original
list. -/
lemma sweep_merge (d wEnd : Int) (hd : 0 < d) (l : List (Int × Int)) (c : Int) :
    sweep d wEnd c (mergeIntervals l) = sweep d wEnd c l := by
  cases l with
  | nil => rfl
  | cons x xs => exact sweep_mergeAux d wEnd hd xs x c

/-! ### Facts about busy-entry normalization -/

/-- Dropping the skipped entries up front changes nothing: normalization
sees only the well-formed entries. -/
lemma normalizeBusy_filter :
    ∀ raw : List RawBusy,
      normalizeBusy raw = normalizeBusy (raw.filter wellFormedRaw) := by
  intro raw
  induction raw with
  | nil => rfl
  | cons b rest ih =>
      rcases b with ⟨⟨hT, ps⟩, ⟨eT, pe⟩⟩
      cases hT <;> cases ps <;> cases pe <;>
        simp [normalizeBusy, wellFormedRaw, List.filter_cons, ih]

lemma normalizeBusy_cons_noT (ps : Option Int) (eT : RawTimestamp)
    (rest : List RawBusy) :
    normalizeBusy (⟨⟨false, ps⟩, eT⟩ :: rest) = normalizeBusy rest := rfl

lemma normalizeBusy_cons_startNone (eT : RawTimestamp) (rest : List RawBusy) :
    normalizeBusy (⟨⟨true, none⟩, eT⟩ :: rest) = normalizeBusy rest := rfl

lemma normalizeBusy_cons_endNone (s : Int) (eT2 : Bool) (rest : List RawBusy) :
    normalizeBusy (⟨⟨true, some s⟩, ⟨eT2, none⟩⟩ :: rest) = normalizeBusy rest := rfl

lemma normalizeBusy_cons_ok (s e : Int) (eT2 : Bool) (rest : List RawBusy) :
    normalizeBusy (⟨⟨true, some s⟩, ⟨eT2, some e⟩⟩ :: rest) =
      (s, e) :: normalizeBusy rest := rfl

/-- Exactly the pairs parsed from a retained entry appear among the
normalized busy periods: retention requires only a time-of-day start and
two parsable timestamps, with no constraint relating the two instants. -/
lemma mem_normalizeBusy (s e : Int) :
    ∀ raw : List RawBusy,
      ((s, e) ∈ normalizeBusy raw ↔
        ∃ b ∈ raw, b.startT.hasT = true ∧ b.startT.parse = some s ∧
          b.endT.parse = some e) := by
  intro raw
  induction raw with
  | nil => simp [normalizeBusy]
  | cons b rest ih =>
      rcases b with ⟨⟨hT, ps⟩, ⟨eT, pe⟩⟩
      cases hT with
      | false =>
          rw [normalizeBusy_cons_noT]
          simp [ih]
      | true =>
          cases ps with
          | none =>
              rw [normalizeBusy_cons_startNone]
              simp [ih]
          | some v1 =>
              cases pe with
              | none =>
                  rw [normalizeBusy_cons_endNone]
                  simp [ih]
              | some v2 =>
                  rw [normalizeBusy_cons_ok, List.mem_cons, ih]
                  constructor
                  · rintro (heq | ⟨b, hb, h1, h2, h3⟩)
                    · have hs : s = v1 := congrArg Prod.fst heq
                      have he2 : e = v2 := congrArg Prod.snd heq
                      subst hs
                      subst he2
                      exact ⟨_, List.mem_cons_self _ _, rfl, rfl, rfl⟩
                    · exact ⟨b, List.mem_cons_of_mem _ hb, h1, h2, h3⟩
                  · rintro ⟨b, hb, h1, h2, h3⟩
                    rcases List.mem_cons.mp hb with rfl | hbt
                    · left
                      have hs : v1 = s := Option.some.inj h2
                      have he2 : v2 = e := Option.some.inj h3
                      rw [Prod.ext_iff]
                      exact ⟨hs.symm, he2.symm⟩
                    · exact Or.inr ⟨b, hbt, h1, h2, h3⟩

/-! ### Transfer lemmas for the sort -/

lemma mem_sortByStart (l : List (Int × Int)) (p : Int × Int) :
    p ∈ sortByStart l ↔ p ∈ l :=
  (List.perm_insertionSort byStart l).mem_iff

lemma sorted_sortByStart (l : List (Int × Int)) :
    (sortByStart l).Pairwise byStart :=
  List.sorted_insertionSort byStart l

lemma length_sortByStart (l : List (Int × Int)) :
    (sortByStart l).length = l.length :=
  (List.perm_insertionSort byStart l).length_eq

/-! ### Claim theorems -/

/-- C1 (counterexample): the claim fails as stated.  With window
`[540, 1020)` (09:00-17:00 in minutes), duration 495 and a single busy
interval `17:30-18:00` — which `get_busy_times` can return, since it
queries the whole day — the finder emits the slot `(540, 1035)`, whose end
`1035` lies past the window end `1020`. -/
theorem C1_counterexample :
    (540, 1035) ∈
        suggest_time_slots 540 1020 495 [⟨⟨true, some 1050⟩, ⟨true, some 1080⟩⟩] ∧
      ¬ ((1035 : Int) ≤ 1020) := by
  refine ⟨?_, by decide⟩
  rw [(by rfl :
    suggest_time_slots 540 1020 495 [⟨⟨true, some 1050⟩, ⟨true, some 1080⟩⟩] =
      [(540, 1035)])]
  exact List.mem_singleton.mpr rfl

/-- C1 (amended): for a positive duration, every emitted slot —
unconditionally — starts at or after `workingWindow.start`, ends after it
starts, and overlaps no normalized busy interval; and whenever every
normalized busy interval starts at or before `workingWindow.end` (the
condition the counterexample shows necessary), every emitted slot also
ends by `workingWindow.end`, hence lies entirely within the window. -/
theorem C1_slots_in_window_and_disjoint (wStart wEnd d : Int)
    (raw : List RawBusy) (hd : 0 < d) :
    ∀ s ∈ suggest_time_slots wStart wEnd d raw,
      (wStart ≤ s.1 ∧ s.1 < s.2) ∧
        (∀ p ∈ normalizeBusy raw, p.2 ≤ s.1 ∨ s.2 ≤ p.1) ∧
        ((∀ p ∈ normalizeBusy raw, p.1 ≤ wEnd) → s.2 ≤ wEnd) := by
  intro s hs
  unfold suggest_time_slots availableSlots at hs
  have hs' : s ∈ sweep d wEnd wStart (sortByStart (normalizeBusy raw)) :=
    List.take_subset 5 _ hs
  have hsort := sorted_sortByStart (normalizeBusy raw)
  have h1 : wStart ≤ s.1 := sweep_start_ge d wEnd _ wStart s hs'
  have h2 : s.2 = s.1 + d := sweep_snd d wEnd _ wStart s hs'
  refine ⟨⟨h1, by omega⟩,
    fun p hp =>
      sweep_disjoint d wEnd _ wStart hsort s hs' p ((mem_sortByStart _ p).mpr hp),
    fun hbs => ?_⟩
  rcases sweep_within d wEnd _ wStart hsort s hs' with h | ⟨p, hp, hple⟩
  · exact h
  · exact le_trans hple (hbs p ((mem_sortByStart _ p).mp hp))

/-- C1 witness: window 09:00-17:00, duration 60, busy 10:00-11:00. -/
theorem C1_witness :
    (0 : Int) < 60 ∧
    ∀ s ∈ suggest_time_slots 540 1020 60 [⟨⟨true, some 600⟩, ⟨true, some 660⟩⟩],
      ((540 : Int) ≤ s.1 ∧ s.1 < s.2) ∧
        (∀ p ∈ normalizeBusy [⟨⟨true, some 600⟩, ⟨true, some 660⟩⟩],
          p.2 ≤ s.1 ∨ s.2 ≤ p.1) ∧
        ((∀ p ∈ normalizeBusy [⟨⟨true, some 600⟩, ⟨true, some 660⟩⟩],
            p.1 ≤ (1020 : Int)) → s.2 ≤ 1020) :=
  ⟨by decide, C1_slots_in_window_and_disjoint 540 1020 60 _ (by decide)⟩

/-- C2 (counterexample): the claim fails as stated.  A busy entry whose
parsed start `600` is after its parsed end `540` is retained by the
normalization (no `start < end` check), and the sweep then emits the same
slot twice — first as the gap before the busy start, then as the tail —
so the returned slots are neither pairwise non-overlapping nor strictly
ascending. -/
theorem C2_counterexample :
    suggest_time_slots 540 1020 60 [⟨⟨true, some 600⟩, ⟨true, some 540⟩⟩] =
        [(540, 600), (540, 600)] ∧
      ¬ (suggest_time_slots 540 1020 60
          [⟨⟨true, some 600⟩, ⟨true, some 540⟩⟩]).Pairwise
            (fun a b => a.2 ≤ b.1 ∧ a.1 < b.1) := by
  have hres : suggest_time_slots 540 1020 60
      [⟨⟨true, some 600⟩, ⟨true, some 540⟩⟩] = [(540, 600), (540, 600)] := rfl
  refine ⟨hres, fun h => ?_⟩
  rw [hres] at h
  have h2 := (List.pairwise_cons.mp h).1 (540, 600) (List.mem_cons_self _ _)
  exact absurd h2.1 (by decide)

/-- C2 (amended): for a positive duration, each emitted slot's end minus
its start equals exactly `durationMinutes` — unconditionally; and under the
additional hypothesis that every normalized busy interval satisfies
`start ≤ end` (the condition the counterexample shows necessary), the
returned slots are pairwise non-overlapping and strictly ascending. -/
theorem C2_slots_disjoint_sorted_length (wStart wEnd d : Int)
    (raw : List RawBusy) (hd : 0 < d) :
    (∀ s ∈ suggest_time_slots wStart wEnd d raw, s.2 - s.1 = d) ∧
      ((∀ p ∈ normalizeBusy raw, p.1 ≤ p.2) →
        (suggest_time_slots wStart wEnd d raw).Pairwise
          (fun a b => a.2 ≤ b.1 ∧ a.1 < b.1)) := by
  constructor
  · intro s hs
    have h2 : s.2 = s.1 + d :=
      sweep_snd d wEnd _ wStart s (List.take_subset 5 _ hs)
    omega
  · intro hwf
    have hwfL : ∀ p ∈ sortByStart (normalizeBusy raw), p.1 ≤ p.2 :=
      fun p hp => hwf p ((mem_sortByStart _ p).mp hp)
    have hchain := sweep_chain d wEnd hd (sortByStart (normalizeBusy raw)) wStart hwfL
    have hP : (suggest_time_slots wStart wEnd d raw).Pairwise
        (fun a b : Int × Int => a.2 ≤ b.1) :=
      hchain.sublist (List.take_sublist 5 _)
    refine hP.imp_of_mem ?_
    intro a b ha _ hab
    have h2 : a.2 = a.1 + d :=
      sweep_snd d wEnd _ wStart a (List.take_subset 5 _ ha)
    exact ⟨hab, by omega⟩

/-- C2 witness: window 09:00-17:00, duration 60, busy 10:00-11:00, with
the ordering implication discharged as well. -/
theorem C2_witness :
    (0 : Int) < 60 ∧
    (∀ s ∈ suggest_time_slots 540 1020 60
        [⟨⟨true, some 600⟩, ⟨true, some 660⟩⟩], s.2 - s.1 = 60) ∧
      (suggest_time_slots 540 1020 60
          [⟨⟨true, some 600⟩, ⟨true, some 660⟩⟩]).Pairwise
            (fun a b => a.2 ≤ b.1 ∧ a.1 < b.1) := by
  have h := C2_slots_disjoint_sorted_length 540 1020 60
    [⟨⟨true, some 600⟩, ⟨true, some 660⟩⟩] (by decide)
  exact ⟨by decide, h.1, h.2 (by decide)⟩

/-- C3 (counterexample): the claim fails as stated.  A busy entry whose
timestamps both parse but with start `600` at or after end `540` is
retained by the normalization rather than skipped: the code performs no
`start < end` check (calendar_service.py lines 134-145). -/
theorem C3_counterexample :
    normalizeBusy [⟨⟨true, some 600⟩, ⟨true, some 540⟩⟩] = [(600, 540)] ∧
      ¬ ((600 : Int) < 540) :=
  ⟨rfl, by decide⟩

/-- C3 (amended): the normalization retains exactly the entries whose
start string carries a time-of-day and whose two timestamps parse; no
`start < end` invariant is established — a retained interval may have
`start ≥ end`.  Malformed (unparsable) and all-day entries are skipped
rather than causing rejection of the request. -/
theorem C3_retained_iff_parsable (raw : List RawBusy) (s e : Int) :
    (s, e) ∈ normalizeBusy raw ↔
      ∃ b ∈ raw, b.startT.hasT = true ∧ b.startT.parse = some s ∧
        b.endT.parse = some e :=
  mem_normalizeBusy s e raw

/-- C4: the single sweep over the sorted normalized busy intervals yields
exactly the same slot sequence as first explicitly merging overlapping
intervals into disjoint ones and then sweeping — the `max(cursor,
busy.end)` advance performs the merge implicitly.  Duration is positive
per the input contract. -/
theorem C4_sweep_equals_merge_then_sweep (wStart wEnd d : Int)
    (raw : List RawBusy) (hd : 0 < d) :
    sweep d wEnd wStart (mergeIntervals (sortByStart (normalizeBusy raw))) =
      availableSlots wStart wEnd d (normalizeBusy raw) :=
  sweep_merge d wEnd hd (sortByStart (normalizeBusy raw)) wStart

/-- C4 witness: the spec's Scenario B, busy 09:00-09:30 and 09:15-10:00
overlapping. -/
theorem C4_witness :
    (0 : Int) < 60 ∧
    sweep 60 1020 540 (mergeIntervals (sortByStart (normalizeBusy
        [⟨⟨true, some 540⟩, ⟨true, some 570⟩⟩,
         ⟨⟨true, some 555⟩, ⟨true, some 600⟩⟩]))) =
      availableSlots 540 1020 60 (normalizeBusy
        [⟨⟨true, some 540⟩, ⟨true, some 570⟩⟩,
         ⟨⟨true, some 555⟩, ⟨true, some 600⟩⟩]) :=
  ⟨by decide, C4_sweep_equals_merge_then_sweep 540 1020 60 _ (by decide)⟩

/-- C5: the sweep emits at most one candidate slot per normalized busy
interval plus one tail slot — never a tiling of the window — and with
zero busy intervals it emits at most one slot, which starts at
`workingWindow.start`. -/
theorem C5_candidate_count (wStart wEnd d : Int) (raw : List RawBusy) :
    (availableSlots wStart wEnd d (normalizeBusy raw)).length ≤
        (normalizeBusy raw).length + 1 ∧
      (normalizeBusy raw = [] →
        (availableSlots wStart wEnd d (normalizeBusy raw)).length ≤ 1 ∧
          ∀ s ∈ availableSlots wStart wEnd d (normalizeBusy raw),
            s.1 = wStart) := by
  constructor
  · have h := sweep_length_le d wEnd (sortByStart (normalizeBusy raw)) wStart
    have hlen := length_sortByStart (normalizeBusy raw)
    unfold availableSlots
    omega
  · intro h0
    unfold availableSlots
    rw [h0, (by rfl : sortByStart [] = ([] : List (Int × Int))), sweep_nil]
    constructor
    · split <;> simp
    · intro s hs
      split at hs
      · rw [List.mem_singleton] at hs
        subst hs
        rfl
      · exact absurd hs (List.not_mem_nil s)

/-- C5 witness: no busy intervals, window exactly one duration wide —
exactly one slot, equal to the window. -/
theorem C5_witness :
    (availableSlots 540 600 60 (normalizeBusy [])).length ≤
        (normalizeBusy ([] : List RawBusy)).length + 1 ∧
      ((availableSlots 540 600 60 (normalizeBusy ([] : List RawBusy))).length ≤ 1 ∧
        ∀ s ∈ availableSlots 540 600 60 (normalizeBusy ([] : List RawBusy)),
          s.1 = 540) :=
  ⟨(C5_candidate_count 540 600 60 []).1, (C5_candidate_count 540 600 60 []).2 rfl⟩

/-- Modelled from the spec: `findSlots(workingWindow, busyIntervals,
durationMinutes, maxResults)` — the finder with a caller-chosen result
cap, of which the code's fixed `available_slots[:5]` is the `maxResults = 5`
instance.  The cap parameter itself is absent from src/. -/
def findSlots (wStart wEnd d : Int) (raw : List RawBusy) (maxResults : Nat) :
    List (Int × Int) :=
  (availableSlots wStart wEnd d (normalizeBusy raw)).take maxResults

/-- C6: the returned list is the 5-element truncation of the candidate
sequence — hence at most 5 slots, and the kept slots are the
chronologically earliest candidates in their original order — and with a
result cap of 1 and at least one candidate, exactly the earliest candidate
is returned. -/
theorem C6_truncation_keeps_earliest (wStart wEnd d : Int) (raw : List RawBusy) :
    suggest_time_slots wStart wEnd d raw =
        (availableSlots wStart wEnd d (normalizeBusy raw)).take 5 ∧
      (suggest_time_slots wStart wEnd d raw).length ≤ 5 ∧
      suggest_time_slots wStart wEnd d raw = findSlots wStart wEnd d raw 5 ∧
      ∀ h : availableSlots wStart wEnd d (normalizeBusy raw) ≠ [],
        findSlots wStart wEnd d raw 1 =
          [(availableSlots wStart wEnd d (normalizeBusy raw)).head h] := by
  refine ⟨rfl, ?_, rfl, ?_⟩
  · show ((availableSlots wStart wEnd d (normalizeBusy raw)).take 5).length ≤ 5
    rw [List.length_take]
    exact min_le_left _ _
  · intro h
    show (availableSlots wStart wEnd d (normalizeBusy raw)).take 1 = _
    rw [List.take_one, List.head?_eq_head h]
    rfl

/-- C6 witness: window 09:00-17:00, duration 60, busy 10:00-11:00 and
12:00-13:00 — three candidate slots; the cap-1 variant returns exactly
the earliest, 09:00-10:00 (the spec's Scenario D). -/
theorem C6_witness :
    suggest_time_slots 540 1020 60
        [⟨⟨true, some 600⟩, ⟨true, some 660⟩⟩,
         ⟨⟨true, some 720⟩, ⟨true, some 780⟩⟩] =
      (availableSlots 540 1020 60 (normalizeBusy
        [⟨⟨true, some 600⟩, ⟨true, some 660⟩⟩,
         ⟨⟨true, some 720⟩, ⟨true, some 780⟩⟩])).take 5 ∧
    (suggest_time_slots 540 1020 60
        [⟨⟨true, some 600⟩, ⟨true, some 660⟩⟩,
         ⟨⟨true, some 720⟩, ⟨true, some 780⟩⟩]).length ≤ 5 ∧
    findSlots 540 1020 60
        [⟨⟨true, some 600⟩, ⟨true, some 660⟩⟩,
         ⟨⟨true, some 720⟩, ⟨true, some 780⟩⟩] 1 = [(540, 600)] := by
  have h := C6_truncation_keeps_earliest 540 1020 60
    [⟨⟨true, some 600⟩, ⟨true, some 660⟩⟩,
     ⟨⟨true, some 720⟩, ⟨true, some 780⟩⟩]
  refine ⟨h.1, h.2.1, ?_⟩
  rw [h.2.2.2 (by decide)]
  rfl

/-- C7 (counterexample): the claim fails as stated.  The busy interval
`(480, 1020)` fully spans the window `[540, 1020)`, yet because a second
busy interval `(1100, 1160)` lies beyond the window end, the finder still
returns the slot `(1020, 1080)` — outside the window — rather than zero
slots. -/
theorem C7_counterexample :
    ((480 : Int) ≤ 540 ∧ (1020 : Int) ≤ 1020 ∧
        (480, 1020) ∈ normalizeBusy
          [⟨⟨true, some 480⟩, ⟨true, some 1020⟩⟩,
           ⟨⟨true, some 1100⟩, ⟨true, some 1160⟩⟩]) ∧
      suggest_time_slots 540 1020 60
          [⟨⟨true, some 480⟩, ⟨true, some 1020⟩⟩,
           ⟨⟨true, some 1100⟩, ⟨true, some 1160⟩⟩] = [(1020, 1080)] :=
  ⟨by decide, rfl⟩

/-- C7 (amended): for a positive duration, if some normalized busy
interval fully spans the window and — as the counterexample shows is
necessary — every normalized busy interval starts at or before
`workingWindow.end`, the finder returns zero slots. -/
theorem C7_spanning_busy_zero_slots (wStart wEnd d : Int) (raw : List RawBusy)
    (hd : 0 < d)
    (hends : ∀ p ∈ normalizeBusy raw, p.1 ≤ wEnd)
    (hspan : ∃ p ∈ normalizeBusy raw, p.1 ≤ wStart ∧ wEnd ≤ p.2) :
    suggest_time_slots wStart wEnd d raw = [] := by
  have hsw : sweep d wEnd wStart (sortByStart (normalizeBusy raw)) = [] := by
    apply sweep_span d wEnd wStart hd _ wStart (sorted_sortByStart _)
      (le_refl _) (fun p hp => hends p ((mem_sortByStart _ p).mp hp))
    obtain ⟨p, hp, h1, h2⟩ := hspan
    exact ⟨p, (mem_sortByStart _ p).mpr hp, h1, h2⟩
  unfold suggest_time_slots availableSlots
  rw [hsw]
  rfl

/-- C7 witness: one busy interval 08:00-17:00 spanning the window
09:00-17:00 entirely — zero slots. -/
theorem C7_witness :
    (∃ p ∈ normalizeBusy [⟨⟨true, some 480⟩, ⟨true, some 1020⟩⟩],
        p.1 ≤ (540 : Int) ∧ (1020 : Int) ≤ p.2) ∧
      suggest_time_slots 540 1020 60 [⟨⟨true, some 480⟩, ⟨true, some 1020⟩⟩] = [] :=
  ⟨by decide,
    C7_spanning_busy_zero_slots 540 1020 60 _ (by decide) (by decide) (by decide)⟩

/-- C8: entries whose start string has no time-of-day (all-day events) or
whose timestamps fail to parse are skipped — the per-entry
`except Exception: continue` makes normalization total, never an error —
and the finder's output on the full list equals its output with the
skipped entries removed up front. -/
theorem C8_skips_are_invisible (wStart wEnd d : Int) (raw : List RawBusy) :
    normalizeBusy raw = normalizeBusy (raw.filter wellFormedRaw) ∧
      suggest_time_slots wStart wEnd d raw =
        suggest_time_slots wStart wEnd d (raw.filter wellFormedRaw) := by
  have h := normalizeBusy_filter raw
  refine ⟨h, ?_⟩
  unfold suggest_time_slots availableSlots
  rw [h]

/-! ### Calendar gateway boundary (calendar_service.py) and orchestrator
dispatch (ai_agent.py)

Python exceptions crossing a boundary are modelled as `Except.error` with
the exception message; catching them is matching on the `Except`. -/

/-- One event item as returned by the backend's event listing; its fields
play no role in `check_availability`, which only counts items. -/
structure GEvent where
  startS : String
  endS : String
  summary : String
  deriving DecidableEq, Repr

/-- `start_time + 'Z' if not start_time.endswith('Z') else start_time`
(calendar_service.py lines 49-50): append a `Z` unless one is already
there. -/
def toRFC3339 (s : String) : String :=
  if s.endsWith "Z" then s else s ++ "Z"

/-- The external calendar backend as `check_availability` uses it: the
`events().list(...)` call for a time range, which either yields the items
or raises (`HttpError`, modelled as `Except.error`). -/
structure Gateway where
  listEvents : String → String → Except String (List GEvent)

/-- `check_availability` (calendar_service.py lines 36-67): convert both
bounds to RFC3339, list the events in the range, and report availability
as `len(events) == 0`; an `HttpError` is re-raised as an exception. -/
def check_availability (g : Gateway) (start_time end_time : String) :
    Except String Bool :=
  match g.listEvents (toRFC3339 start_time) (toRFC3339 end_time) with
  | .ok events => .ok (events.length == 0)
  | .error e => .error ("Failed to check availability: " ++ e)

/-- An event record as `create_event` returns it (calendar_service.py
lines 220-227). -/
structure EventInfo where
  id : String
  summary : String
  startS : String
  endS : String
  html_link : String
  status : String
  deriving DecidableEq, Repr

/-- The `CalendarService` methods the orchestrator's `_execute_function`
dispatches to, each of which may raise (modelled as `Except.error`). -/
structure CalendarServiceM where
  check_availability : String → String → Except String Bool
  suggest_time_slots : String → Int → Int → Int → Except String (List (Int × Int))
  create_event : String → String → String → String → String → Except String EventInfo
  get_events : Int → Except String (List EventInfo)

/-- The payload part of a successful `_execute_function` result, one
constructor per action (ai_agent.py lines 116-162). -/
inductive Payload where
  | availability (available : Bool) (message : String)
  | slots (slots : List (Int × Int)) (message : String)
  | eventCreated (event : EventInfo) (message : String)
  | events (events : List EventInfo) (message : String)
  deriving DecidableEq, Repr

/-- The dictionary `_execute_function` returns: a `success` flag, the
payload keys on success, an `error` string on failure. -/
structure ExecResult where
  success : Bool
  payload : Option Payload
  error : Option String
  deriving DecidableEq, Repr

/-- The arguments dictionary passed to `_execute_function`: a field is
`none` when the key is absent.  `arguments["k"]` on an absent key raises
`KeyError` (caught by the surrounding `try`); `arguments.get("k", dflt)`
never raises. -/
structure FuncArgs where
  start_time : Option String := none
  end_time : Option String := none
  date : Option String := none
  duration_minutes : Option Int := none
  preferred_start_hour : Option Int := none
  preferred_end_hour : Option Int := none
  summary : Option String := none
  description : Option String := none
  attendee_email : Option String := none
  max_results : Option Int := none
  deriving DecidableEq, Repr

/-- `arguments["k"]`: the value, or a raised `KeyError` when absent. -/
def getReq (k : String) : Option α → Except String α
  | some v => .ok v
  | none => .error ("KeyError: " ++ k)

/-- `_execute_function` (ai_agent.py lines 113-174): dispatch on the
function name, call the calendar service, and wrap the outcome; the
enclosing `try`/`except` turns any raised exception into
`{"success": False, "error": str(e)}`, and an unknown name yields
`{"success": False, "error": "Unknown function: ..."}` directly. -/
def executeFunction (svc : CalendarServiceM) (function_name : String)
    (arguments : FuncArgs) : ExecResult :=
  if function_name = "check_availability" then
    match (do
        let st ← getReq "start_time" arguments.start_time
        let et ← getReq "end_time" arguments.end_time
        let is_available ← svc.check_availability st et
        pure (Payload.availability is_available
          ("Time slot is " ++
            (if is_available then "available" else "not available"))) :
        Except String Payload) with
    | .ok p => ⟨true, some p, none⟩
    | .error e => ⟨false, none, some e⟩
  else if function_name = "suggest_time_slots" then
    match (do
        let date ← getReq "date" arguments.date
        let slots ← svc.suggest_time_slots date
          (arguments.duration_minutes.getD 60)
          (arguments.preferred_start_hour.getD 9)
          (arguments.preferred_end_hour.getD 17)
        pure (Payload.slots slots
          ("Found " ++ toString slots.length ++ " available time slots")) :
        Except String Payload) with
    | .ok p => ⟨true, some p, none⟩
    | .error e => ⟨false, none, some e⟩
  else if function_name = "create_appointment" then
    match (do
        let summary ← getReq "summary" arguments.summary
        let st ← getReq "start_time" arguments.start_time
        let et ← getReq "end_time" arguments.end_time
        let event ← svc.create_event summary st et
          (arguments.description.getD "") (arguments.attendee_email.getD "")
        pure (Payload.eventCreated event "Appointment created successfully") :
        Except String Payload) with
    | .ok p => ⟨true, some p, none⟩
    | .error e => ⟨false, none, some e⟩
  else if function_name = "get_upcoming_events" then
    match (do
        let events ← svc.get_events (arguments.max_results.getD 10)
        pure (Payload.events events
          ("Retrieved " ++ toString events.length ++ " upcoming events")) :
        Except String Payload) with
    | .ok p => ⟨true, some p, none⟩
    | .error e => ⟨false, none, some e⟩
  else
    ⟨false, none, some ("Unknown function: " ++ function_name)⟩

/-- C9: for every action name, argument dictionary and calendar-service
behavior, `_execute_function` returns a value — never an exception across
the boundary — and that value is either `success = true` with a payload
and no error, or `success = false` with an error string and no payload. -/
theorem C9_execute_function_total_shape (svc : CalendarServiceM)
    (function_name : String) (arguments : FuncArgs) :
    ((executeFunction svc function_name arguments).success = true ∧
        (executeFunction svc function_name arguments).payload.isSome = true ∧
        (executeFunction svc function_name arguments).error = none) ∨
      ((executeFunction svc function_name arguments).success = false ∧
        (executeFunction svc function_name arguments).payload = none ∧
        (executeFunction svc function_name arguments).error.isSome = true) := by
  unfold executeFunction
  split
  · split <;> simp
  · split
    · split <;> simp
    · split
      · split <;> simp
      · split
        · split <;> simp
        · simp

/-- C10 (implicit claim): `check_availability` answers `true` exactly when
the backend's event listing for the queried range comes back empty — any
listed event at all, of any kind or length, makes it `false`; a backend
failure propagates as an error, not as an answer. -/
theorem C10_available_iff_no_events (g : Gateway) (start_time end_time : String)
    (events : List GEvent)
    (h : g.listEvents (toRFC3339 start_time) (toRFC3339 end_time) = .ok events) :
    check_availability g start_time end_time = .ok true ↔ events = [] := by
  unfold check_availability
  rw [h]
  simp [List.length_eq_zero]

/-- C10 witness: a backend with no events in the range answers
available. -/
theorem C10_witness :
    (Gateway.mk (fun _ _ => .ok [])).listEvents (toRFC3339 "2024-01-15T10:00:00")
        (toRFC3339 "2024-01-15T11:00:00") = .ok ([] : List GEvent) ∧
      (check_availability (Gateway.mk (fun _ _ => .ok []))
          "2024-01-15T10:00:00" "2024-01-15T11:00:00" = .ok true ↔
        ([] : List GEvent) = []) :=
  ⟨rfl, C10_available_iff_no_events (Gateway.mk (fun _ _ => .ok []))
    "2024-01-15T10:00:00" "2024-01-15T11:00:00" [] rfl⟩

end CalendarBot
